import Mathlib

/-!
Verification development for the `library-resources` plugin
(`src/plugin/library-resources.ts`): a two-scope (global / project) registry
of cloned documentation repositories, with a merged name-keyed view in which
project-scope records shadow global-scope records, and CRUD / search / read /
tree operations over the registry and the on-disk working copies.

The embedding is shallow:
* `Resource` / `ResourceRegistry` mirror the TypeScript interfaces.
* A registry file on disk is a `RegFile`: absent, present-but-unparseable
  (`JSON.parse` throws), or present and parsing to exactly a given registry.
  The external JSON codec is modelled abstractly: `JSON.stringify` of a
  registry produces text that `JSON.parse` maps back to the same registry,
  so `saveRegistry` yields `RegFile.parsed r` (the round-trip property of the
  host JSON library is part of the model, like the git provider).
* The file system is a finite association list from paths (segment lists) to
  nodes (directory or file-with-content); `fs.existsSync` is a lookup.
* External providers (git clone / pull, grep, find) are parameters: each call
  site receives the provider's outcome as an explicit value, and operations
  additionally return a trace of provider / registry-write events where a
  claim is about sequencing or about whether a provider was invoked.
-/

/-- The two registry scopes (`"global" | "project"` in the source). -/
inductive Scope where
  | global
  | project
deriving DecidableEq, Repr

/-- The string the source stores in the `scope` field. -/
def scopeStr : Scope → String
  | .global => "global"
  | .project => "project"

/-- `interface Resource` of `library-resources.ts` (lines 6-14). -/
structure Resource where
  name : String
  url : String
  branch : String
  notes : String
  scope : Scope
  clonedAt : String
  updatedAt : String
deriving DecidableEq, Repr

/-- `interface ResourceRegistry` of `library-resources.ts` (lines 16-19). -/
structure ResourceRegistry where
  version : Nat
  resources : List Resource
deriving DecidableEq, Repr

/-- State of one registry file on disk: missing, present but not valid JSON
(`JSON.parse` throws), or present and parsing to registry `r`. -/
inductive RegFile where
  | absent
  | unparseable (raw : String)
  | parsed (r : ResourceRegistry)
deriving DecidableEq, Repr

/-- `loadRegistry` (lines 41-50): missing file gives the empty default,
a parse failure is caught and also gives the empty default, otherwise the
parsed registry is returned as-is. -/
def loadRegistry : RegFile → ResourceRegistry
  | .absent => ⟨1, []⟩
  | .unparseable _ => ⟨1, []⟩
  | .parsed r => r

/-- `saveRegistry` (lines 52-56): writes `JSON.stringify(registry)`, fully
overwriting the file; the written text parses back to the same registry. -/
def saveRegistry (registry : ResourceRegistry) : RegFile :=
  .parsed registry

/-- A filesystem path, as a list of segments. -/
abbrev FPath := List String

/-- A filesystem node: a directory or a regular file with contents. -/
inductive Node where
  | dir
  | file (content : String)
deriving DecidableEq, Repr

/-- The filesystem outside the two registry files: a finite association list
from paths to nodes (first binding wins, as `fsGet` looks up). -/
abbrev Fs := List (FPath × Node)

/-- Lookup a path (`fs.existsSync` / `fs.statSync`). -/
def fsGet (fs : Fs) (p : FPath) : Option Node :=
  (fs.find? (fun q => decide (q.1 = p))).map Prod.snd

/-- Create or overwrite a node at a path. -/
def fsSet (fs : Fs) (p : FPath) (n : Node) : Fs :=
  if (fsGet fs p).isSome then
    fs.map (fun q => if q.1 = p then (p, n) else q)
  else
    fs ++ [(p, n)]

/-- `fs.rmSync(p, {recursive: true})`: drop `p` and everything under it. -/
def fsRemoveRec (fs : Fs) (p : FPath) : Fs :=
  fs.filter (fun q => !(p.isPrefixOf q.1))

/-- Mutable state the plugin touches: the two registry files and the rest of
the filesystem (working-copy directories and their files). -/
structure St where
  gReg : RegFile
  pReg : RegFile
  fs : Fs
deriving DecidableEq, Repr

/-- `GLOBAL_REPOS_DIR` (lines 21-25), with the home directory abbreviated to
one segment. -/
def GLOBAL_REPOS_DIR : FPath := ["home", ".config", "opencode", "resources", "repos"]

/-- `PROJECT_REPOS_DIR` (lines 29-30), with the project directory abbreviated
to one segment. -/
def PROJECT_REPOS_DIR : FPath := ["project", ".opencode", "resources", "repos"]

/-- `getResourcePath` (lines 74-78): pure function of scope and name. -/
def getResourcePath (resource : Resource) : FPath :=
  match resource.scope with
  | .project => PROJECT_REPOS_DIR ++ [resource.name]
  | .global => GLOBAL_REPOS_DIR ++ [resource.name]

/-- The name-keyed association list built by `getMergedResources`; models the
JS `Map<string, Resource>` (insertion order preserved, `set` on an existing
key updates the value in place). -/
abbrev MergeMap := List (String × Resource)

/-- `Map.prototype.set`: replace the value at an existing key (keeping its
position), else append a fresh binding. -/
def mapSet (m : MergeMap) (k : String) (v : Resource) : MergeMap :=
  if m.any (fun q => decide (q.1 = k)) then
    m.map (fun q => if q.1 = k then (k, v) else q)
  else
    m ++ [(k, v)]

/-- One loop of `getMergedResources` (lines 64-66 / 67-69): insert every
record of a scope's registry, forcing its `scope` tag. -/
def insertScope (m : MergeMap) (rs : List Resource) (sc : Scope) : MergeMap :=
  rs.foldl (fun m r => mapSet m r.name { r with scope := sc }) m

/-- `getMergedResources` (lines 59-71): global records first, then project
records overwriting same-name entries; returns the map's values. -/
def getMergedResources (g p : RegFile) : List Resource :=
  (insertScope (insertScope [] (loadRegistry g).resources .global)
    (loadRegistry p).resources .project).map Prod.snd

/-- `findResource` (lines 81-83): first merged record with the given name. -/
def findResource (g p : RegFile) (name : String) : Option Resource :=
  (getMergedResources g p).find? (fun r => decide (r.name = name))

/-- Scope-indexed read of the registry state (`loadRegistry(registryPath)`
with the scope's fixed path). -/
def loadScope (st : St) : Scope → ResourceRegistry
  | .global => loadRegistry st.gReg
  | .project => loadRegistry st.pReg

/-- Scope-indexed write of the registry state (`saveRegistry(registryPath, r)`
with the scope's fixed path). -/
def saveScope (st : St) (sc : Scope) (r : ResourceRegistry) : St :=
  match sc with
  | .global => { st with gReg := saveRegistry r }
  | .project => { st with pReg := saveRegistry r }

/-- Split a list of characters at a separator character; structural version
of `split(sep)`. -/
def splitCharsAux (sep : Char) : List Char → List Char → List String
  | [], acc => [String.mk acc.reverse]
  | c :: rest, acc =>
    if c = sep then String.mk acc.reverse :: splitCharsAux sep rest []
    else splitCharsAux sep rest (c :: acc)

/-- `s.split("/")` on a path string. -/
def splitSegs (s : String) : List String :=
  splitCharsAux '/' s.data []

/-- `s.split("\n")` on provider output. -/
def splitNl (s : String) : List String :=
  splitCharsAux '\n' s.data []

/-- JS whitespace test for `trim`, for the characters that occur here. -/
def isWsp (c : Char) : Bool :=
  c = ' ' ∨ c = '\t' ∨ c = '\n' ∨ c = '\r'

/-- `s.trim()`: strip leading and trailing whitespace (structural version). -/
def trimChars (s : String) : String :=
  String.mk (((s.data.dropWhile isWsp).reverse.dropWhile isWsp).reverse)

/-- Outcome of one `git clone` provider call (lines 152-160 / 370-394). -/
inductive CloneResult where
  | ok
  | exitErr (stderr : String)
  | thrown (msg : String)
deriving DecidableEq, Repr

/-- Outcome of one `git pull` provider call (lines 269-296). -/
inductive PullResult where
  | ok (stdout : String)
  | exitErr (stderr : String)
  | thrown (msg : String)
deriving DecidableEq, Repr

/-- Events `add` emits, for sequencing claims: a clone-provider invocation and
a registry-file write. -/
inductive Event where
  | cloneAttempt
  | registryWrite (sc : Scope)
deriving DecidableEq, Repr

/-- The `add` action of `resource_manage` (lines 133-195). Parameters:
`clone` is the clone provider's outcome, `stats` the `(fileCount, size)` the
stat providers return on the success path (`none` models their try/catch
throwing, which yields "unknown"), `now` the `new Date().toISOString()`.
Returns the tool's text response, the new state, and the event trace. -/
def addAction (st : St) (name? url? : Option String) (branch notes : String)
    (project : Bool) (clone : CloneResult) (stats : Option (String × String))
    (now : String) : String × St × List Event :=
  match name?, url? with
  | some name, some url =>
    let scope := if project then Scope.project else Scope.global
    let reposDir := if project then PROJECT_REPOS_DIR else GLOBAL_REPOS_DIR
    let repoPath := reposDir ++ [name]
    match findResource st.gReg st.pReg name with
    | some existing =>
      let sc := scopeStr existing.scope
      (s!"Error: Resource '{name}' already exists ({sc}). Remove it first or use a different name.",
        st, [])
    | none =>
      let st1 : St :=
        { st with fs := if (fsGet st.fs reposDir).isSome then st.fs
                        else fsSet st.fs reposDir .dir }
      match clone with
      | .exitErr e => (s!"Error cloning repository: {e}", st1, [.cloneAttempt])
      | .thrown m => (s!"Error cloning repository: {m}", st1, [.cloneAttempt])
      | .ok =>
        let st2 : St := { st1 with fs := fsSet st1.fs repoPath .dir }
        let registry := loadScope st2 scope
        let newRes : Resource :=
          { name := name, url := url, branch := branch, notes := notes,
            scope := scope, clonedAt := now, updatedAt := now }
        let st3 := saveScope st2 scope
          { registry with resources := registry.resources ++ [newRes] }
        let fileCount := (stats.map Prod.fst).getD "unknown"
        let size := (stats.map Prod.snd).getD "unknown"
        let scStr := scopeStr scope
        let notesStr := if notes = "" then "(none)" else notes
        (s!"Added '{name}' ({scStr})\n  URL: {url}\n  Branch: {branch}\n  Notes: {notesStr}\n  Files: {fileCount}\n  Size: {size}",
          st3, [.cloneAttempt, .registryWrite scope])
  | _, _ =>
    ("Error: 'add' requires name and url.\nUsage: add <name> <url> [branch] [notes] [--project]",
      st, [])

/-- The `remove` action of `resource_manage` (lines 197-226): resolve in the
merged view, recursively delete the working copy if present, then delete the
record (by name) from the registry of the scope that owns the resolved
resource and save that registry. -/
def removeAction (st : St) (name? : Option String) : String × St :=
  match name? with
  | none => ("Error: 'remove' requires a name.\nUsage: remove <name>", st)
  | some name =>
    match findResource st.gReg st.pReg name with
    | none => (s!"Error: Resource '{name}' not found.", st)
    | some resource =>
      let repoPath := getResourcePath resource
      let fs1 := if (fsGet st.fs repoPath).isSome then fsRemoveRec st.fs repoPath else st.fs
      let st1 : St := { st with fs := fs1 }
      let registry := loadScope st1 resource.scope
      let st2 := saveScope st1 resource.scope
        { registry with resources := registry.resources.filter (fun r => decide (r.name ≠ name)) }
      (s!"Removed '{name}'", st2)

/-- `registry.resources.find(res => res.name === r.name)` then mutating that
one object's `updatedAt` (lines 280-286): update the first record with the
given name, leave the rest alone. -/
def updateFirstNamed (rs : List Resource) (name now : String) : List Resource :=
  match rs with
  | [] => []
  | r :: rest =>
    if r.name = name then { r with updatedAt := now } :: rest
    else r :: updateFirstNamed rest name now

/-- One iteration of the `update` loop (lines 259-297): skip (with a
"Not cloned" line) when the working copy is absent, otherwise delegate to the
pull provider; on success refresh `updatedAt` in the owning registry (when a
record of that name is there) and report the pull's trimmed stdout, on
provider failure report an error line and leave the state alone. -/
def updateOne (pull : Resource → PullResult) (now : String) (st : St)
    (r : Resource) : String × St :=
  let repoPath := getResourcePath r
  if (fsGet st.fs repoPath).isNone then
    (s!"{r.name}: Not cloned (use 'restore' to clone)", st)
  else
    match pull r with
    | .ok out =>
      let registry := loadScope st r.scope
      let st1 :=
        if registry.resources.any (fun res => decide (res.name = r.name)) then
          saveScope st r.scope
            { registry with resources := updateFirstNamed registry.resources r.name now }
        else st
      let trimmed := trimChars out
      let line := if trimmed = "" then s!"{r.name}: Already up to date"
                  else s!"{r.name}: {trimmed}"
      (line, st1)
    | .exitErr e => (s!"{r.name}: Error - {e}", st)
    | .thrown m => (s!"{r.name}: Error - {m}", st)

/-- The `update` loop over the targeted resources (lines 258-298), threading
the state and collecting one report line per resource. -/
def updateBatch (pull : Resource → PullResult) (now : String) :
    St → List Resource → List String × St
  | st, [] => ([], st)
  | st, r :: rs =>
    let one := updateOne pull now st r
    let rest := updateBatch pull now one.2 rs
    (one.1 :: rest.1, rest.2)

/-- The `update` action of `resource_manage` (lines 247-299): one named
resource, or the whole merged view when no name is given; aggregates the
per-resource lines into one newline-joined report. -/
def updateAction (st : St) (name? : Option String) (pull : Resource → PullResult)
    (now : String) : String × St :=
  let resources := match name? with
    | some n => (findResource st.gReg st.pReg n).toList
    | none => getMergedResources st.gReg st.pReg
  if resources.isEmpty then
    (match name? with
      | some n => s!"Error: Resource '{n}' not found."
      | none => "No resources to update.", st)
  else
    let batch := updateBatch pull now st resources
    (String.intercalate "\n" batch.1, batch.2)

/-- Render a segment path the way the source's string paths read. -/
def joinPath (p : FPath) : String :=
  String.intercalate "/" p

/-- `line.replace(repoPath + "/", "")` on a grep/find output line: such lines
begin with the repo path, so the first occurrence is the leading one. -/
def stripRepoPre (repoStr : String) (line : String) : String :=
  if (repoStr ++ "/").isPrefixOf line then line.drop (repoStr ++ "/").length
  else line

/-- Outcome of one content-search provider call (the `grep` pipeline of lines
445-447): captured stdout, or a thrown error (caught and ignored). -/
inductive GrepResult where
  | ok (stdout : String)
  | thrown
deriving DecidableEq, Repr

/-- The `resource_search` tool (lines 406-473). `grep` is the content-search
provider's outcome per resource (the `include` filter is folded into the
provider). Returns the text response and the trace of repo paths the provider
was invoked on. -/
def searchAction (st : St) (query : String) (name? : Option String)
    (grep : Resource → GrepResult) : String × List FPath :=
  let resources := match name? with
    | some n => (findResource st.gReg st.pReg n).toList
    | none => getMergedResources st.gReg st.pReg
  if resources.isEmpty then
    (match name? with
      | some n => s!"Resource '{n}' not found."
      | none => "No resources available.", [])
  else
    let step := fun (acc : List String × List FPath) (r : Resource) =>
      let repoPath := getResourcePath r
      if (fsGet st.fs repoPath).isNone then acc
      else
        let called := acc.2 ++ [repoPath]
        match grep r with
        | .thrown => (acc.1, called)
        | .ok out =>
          let trimmed := trimChars out
          if trimmed = "" then (acc.1, called)
          else
            let repoStr := joinPath repoPath
            let body := String.intercalate "\n"
              ((splitNl trimmed).map (stripRepoPre repoStr))
            (acc.1 ++ [s!"\n### {r.name}\n```\n{body}\n```"], called)
    let looped := resources.foldl step ([], [])
    if looped.1.isEmpty then
      let tail := match name? with
        | some n => s!" in {n}"
        | none => ""
      (s!"No matches found for \"{query}\"" ++ tail, looped.2)
    else
      (s!"Search results for \"{query}\":" ++ String.intercalate "\n" looped.1, looped.2)

/-- One step of Node `path.join` normalization: drop empty and `.` segments,
let `..` pop the previous segment. -/
def normStep (acc : List String) (seg : String) : List String :=
  if seg = "" ∨ seg = "." then acc
  else if seg = ".." then acc.dropLast
  else acc ++ [seg]

/-- `path.join(base, rel)` for an absolute base: concatenate and normalize
(`..` resolved by popping, never escaping past the filesystem root). -/
def pathJoin (base : FPath) (rel : String) : FPath :=
  (base ++ splitSegs rel).foldl normStep []

/-- The `resource_read` tool (lines 476-511): resolve the name, require the
working copy, join the resource root with `filePath` (no containment check),
then report not-found / is-directory, or return the full file contents. -/
def readAction (st : St) (name filePath : String) : String :=
  match findResource st.gReg st.pReg name with
  | none => s!"Resource '{name}' not found."
  | some resource =>
    let repoPath := getResourcePath resource
    if (fsGet st.fs repoPath).isNone then
      s!"Resource '{name}' is not cloned. Run '/resource restore {name}' first."
    else
      let fullPath := pathJoin repoPath filePath
      match fsGet st.fs fullPath with
      | none => s!"File not found: {filePath}\n\nUse resource_tree to see available files."
      | some .dir => s!"'{filePath}' is a directory. Use resource_tree to list its contents."
      | some (.file content) => s!"# {name}/{filePath}\n\n{content}"

/-- Codepoint comparison of characters. -/
def charLtB (c d : Char) : Bool :=
  decide (c.toNat < d.toNat)

/-- Lexicographic (byte-order) comparison of character lists, as the shell
`sort` orders lines. -/
def charsLt : List Char → List Char → Bool
  | [], [] => false
  | [], _ :: _ => true
  | _ :: _, [] => false
  | c :: cs, d :: ds => if c = d then charsLt cs ds else charLtB c d

/-- Strict string comparison used by the sort stage. -/
def strLt (a b : String) : Bool :=
  charsLt a.data b.data

/-- Lexicographic order on segment paths, as `sort` orders the find output. -/
def segLe : FPath → FPath → Bool
  | [], _ => true
  | _ :: _, [] => false
  | a :: as, b :: bs => if a = b then segLe as bs else strLt a b

/-- Insert a path into a `segLe`-sorted list. -/
def insertSorted (x : FPath) : List FPath → List FPath
  | [] => [x]
  | y :: ys => if segLe x y then x :: y :: ys else y :: insertSorted x ys

/-- The `sort` stage of the tree pipeline. -/
def sortPaths (l : List FPath) : List FPath :=
  l.foldr insertSorted []

/-- The `| sort | head -100` tail of the command `resource_tree` runs
(line 548) applied to the raw find output. -/
def treePipeline (findOut : List FPath) : List FPath :=
  (sortPaths findOut).take 100

/-- Path rewriting of line 555 (`line.replace(repoPath + "/", "")`), at the
segment level: drop the repo-path prefix. -/
def relSeg (repoPath : FPath) (l : FPath) : FPath :=
  if repoPath.isPrefixOf l then l.drop repoPath.length else l

/-- The `lines` intermediate of `resource_tree` (lines 551-555): pipeline
output, empty entries dropped, each path rewritten relative to the resource
root. -/
def treeLines (repoPath : FPath) (findOut : List FPath) : List FPath :=
  ((treePipeline findOut).filter (fun l => decide (l ≠ []))).map (relSeg repoPath)

/-- The `resource_tree` tool (lines 515-569). `findOut` is the raw output of
the file-enumeration provider (`find targetPath -maxdepth depth -type f`),
before the `sort`/`head` stages the command appends. -/
def treeAction (st : St) (name subpath : String) (depth : Nat)
    (findOut : List FPath) : String :=
  match findResource st.gReg st.pReg name with
  | none => s!"Resource '{name}' not found."
  | some resource =>
    let repoPath := getResourcePath resource
    if (fsGet st.fs repoPath).isNone then
      s!"Resource '{name}' is not cloned. Run '/resource restore {name}' first."
    else
      let targetPath := pathJoin repoPath subpath
      if (fsGet st.fs targetPath).isNone then
        let disp := if subpath = "" then "/" else subpath
        s!"Path not found: {disp}"
      else
        let lines := treeLines repoPath findOut
        if lines.isEmpty then
          s!"No files found in {name}/{subpath}"
        else
          let header := if subpath = "" then name else s!"{name}/{subpath}"
          let depthStr := toString depth
          let body := String.intercalate "\n" (lines.map joinPath)
          let trunc := if lines.length ≥ 100 then "\n\n(truncated at 100 files)" else ""
          s!"Files in {header} (depth: {depthStr}):\n\n" ++ body ++ trunc

/-- Key lookup in the merge map (`Map.prototype.get`). -/
def alookup (m : MergeMap) (k : String) : Option Resource :=
  (m.find? (fun q => decide (q.1 = k))).map Prod.snd

/-- Every binding's value carries the binding's key as its `name` (true of the
map `getMergedResources` builds, since `set(r.name, {...r, scope})` is the only
insertion). -/
def KeyedMap (m : MergeMap) : Prop :=
  ∀ q ∈ m, q.2.name = q.1

theorem alookup_map_update (k : String) (v : Resource) :
    ∀ m : MergeMap, m.any (fun q => decide (q.1 = k)) = true →
      alookup (m.map (fun q => if q.1 = k then (k, v) else q)) k = some v := by
  intro m
  induction m with
  | nil => intro h; simp at h
  | cons q rest ih =>
    intro h
    by_cases hq : q.1 = k
    · simp [alookup, List.find?_cons, hq]
    · have hrest : rest.any (fun q => decide (q.1 = k)) = true := by
        simpa [hq] using h
      simpa [alookup, List.find?_cons, hq] using ih hrest

theorem alookup_map_update_ne (k : String) (v : Resource) (k' : String) (h : k' ≠ k) :
    ∀ m : MergeMap, alookup (m.map (fun q => if q.1 = k then (k, v) else q)) k' = alookup m k' := by
  intro m
  induction m with
  | nil => rfl
  | cons q rest ih =>
    by_cases hq : q.1 = k
    · have hq' : ¬ q.1 = k' := by rw [hq]; exact fun hk => h hk.symm
      simpa [alookup, List.find?_cons, hq, Ne.symm h, hq'] using ih
    · by_cases hq2 : q.1 = k'
      · unfold alookup
        simp only [List.map_cons, if_neg hq]
        rw [List.find?_cons, List.find?_cons]
        simp [hq2]
      · simpa [alookup, List.find?_cons, hq, hq2] using ih

theorem alookup_mapSet_self (m : MergeMap) (k : String) (v : Resource) :
    alookup (mapSet m k v) k = some v := by
  unfold mapSet
  split
  · exact alookup_map_update k v m (by assumption)
  · rename_i hany
    have hnone : m.find? (fun q => decide (q.1 = k)) = none := by
      rw [List.find?_eq_none]
      intro x hx
      simp only [decide_eq_true_eq]
      intro hk
      have : m.any (fun q => decide (q.1 = k)) = true :=
        List.any_eq_true.mpr ⟨x, hx, by simp [hk]⟩
      exact hany this
    simp [alookup, List.find?_append, hnone, List.find?_cons]

theorem alookup_mapSet_ne (m : MergeMap) (k : String) (v : Resource) (k' : String)
    (h : k' ≠ k) : alookup (mapSet m k v) k' = alookup m k' := by
  unfold mapSet
  split
  · exact alookup_map_update_ne k v k' h m
  · have hone : alookup [(k, v)] k' = none := by
      simp [alookup, List.find?_cons, Ne.symm h]
    unfold alookup at hone ⊢
    rw [List.find?_append]
    cases hfind : m.find? (fun q => decide (q.1 = k)) with
    | none =>
      cases hfind2 : m.find? (fun q => decide (q.1 = k')) with
      | none => simpa [hfind2, Option.or] using hone
      | some x => simp [hfind2, Option.or]
    | some x =>
      cases hfind2 : m.find? (fun q => decide (q.1 = k')) with
      | none => simpa [hfind2, Option.or] using hone
      | some y => simp [hfind2, Option.or]

theorem keyedMap_mapSet (m : MergeMap) (k : String) (v : Resource)
    (hm : KeyedMap m) (hv : v.name = k) : KeyedMap (mapSet m k v) := by
  unfold mapSet
  split
  · intro q hq
    obtain ⟨q0, hq0, hq0e⟩ := List.mem_map.mp hq
    by_cases h0 : q0.1 = k
    · rw [if_pos h0] at hq0e; rw [← hq0e]; exact hv
    · rw [if_neg h0] at hq0e; rw [← hq0e]; exact hm q0 hq0
  · intro q hq
    rcases List.mem_append.mp hq with h | h
    · exact hm q h
    · rcases List.mem_singleton.mp h with rfl
      exact hv

theorem keyedMap_insertScope (rs : List Resource) (sc : Scope) :
    ∀ m : MergeMap, KeyedMap m → KeyedMap (insertScope m rs sc) := by
  induction rs with
  | nil => intro m hm; exact hm
  | cons r rest ih =>
    intro m hm
    exact ih _ (keyedMap_mapSet m r.name { r with scope := sc } hm rfl)

/-- The last record of a list with the given name (the record the merge map
ends up holding for that name). -/
def lastNamed (k : String) : List Resource → Option Resource
  | [] => none
  | r :: rs =>
    match lastNamed k rs with
    | some x => some x
    | none => if r.name = k then some r else none

theorem alookup_insertScope (sc : Scope) (k : String) :
    ∀ (rs : List Resource) (m : MergeMap),
      alookup (insertScope m rs sc) k =
        match lastNamed k rs with
        | some x => some { x with scope := sc }
        | none => alookup m k := by
  intro rs
  induction rs with
  | nil => intro m; rfl
  | cons r rest ih =>
    intro m
    show alookup (insertScope (mapSet m r.name { r with scope := sc }) rest sc) k = _
    rw [ih]
    cases hlast : lastNamed k rest with
    | some x => simp [lastNamed, hlast]
    | none =>
      by_cases hr : r.name = k
      · subst hr
        simp [lastNamed, hlast, alookup_mapSet_self]
      · simp [lastNamed, hlast, hr, alookup_mapSet_ne m r.name _ k (fun he => hr he.symm)]

theorem find?_values_of_keyed (k : String) :
    ∀ m : MergeMap, KeyedMap m →
      (m.map Prod.snd).find? (fun r => decide (r.name = k)) = alookup m k := by
  intro m
  induction m with
  | nil => intro _; rfl
  | cons q rest ih =>
    intro hm
    have hq : q.2.name = q.1 := hm q (List.mem_cons_self q rest)
    by_cases h1 : q.1 = k
    · unfold alookup
      rw [List.map_cons, List.find?_cons, List.find?_cons]
      simp [hq, h1]
    · unfold alookup
      rw [List.map_cons, List.find?_cons, List.find?_cons]
      have hqn : ¬ q.2.name = k := by rw [hq]; exact h1
      simp only [decide_eq_false hqn, decide_eq_false h1]
      exact ih (fun x hx => hm x (List.mem_cons_of_mem q hx))

theorem lastNamed_mem (k : String) :
    ∀ rs : List Resource, ∀ x : Resource,
      lastNamed k rs = some x → x ∈ rs ∧ x.name = k := by
  intro rs
  induction rs with
  | nil => intro x h; exact absurd h (by simp [lastNamed])
  | cons r rest ih =>
    intro x h
    unfold lastNamed at h
    cases hlast : lastNamed k rest with
    | some y =>
      rw [hlast] at h
      have hxy : y = x := by simpa using h
      obtain ⟨hmem, hn⟩ := ih y hlast
      rw [hxy] at hmem hn
      exact ⟨List.mem_cons_of_mem r hmem, hn⟩
    | none =>
      rw [hlast] at h
      by_cases hr : r.name = k
      · rw [if_pos hr] at h
        obtain rfl : r = x := by simpa using h
        exact ⟨List.mem_cons_self r rest, hr⟩
      · rw [if_neg hr] at h
        exact absurd h (by simp)

theorem lastNamed_eq_none_iff (k : String) :
    ∀ rs : List Resource, lastNamed k rs = none ↔ ∀ r ∈ rs, r.name ≠ k := by
  intro rs
  induction rs with
  | nil => simp [lastNamed]
  | cons r rest ih =>
    unfold lastNamed
    cases hlast : lastNamed k rest with
    | some y =>
      simp only [reduceCtorEq, false_iff]
      intro hall
      obtain ⟨hmem, hn⟩ := lastNamed_mem k rest y hlast
      exact hall y (List.mem_cons_of_mem r hmem) hn
    | none =>
      by_cases hr : r.name = k
      · simp [hr]
      · simp only [if_neg hr]
        rw [hlast] at ih
        simp only [true_iff] at ih
        simp only [true_iff]
        intro x hx
        rcases List.mem_cons.mp hx with rfl | hx
        · exact hr
        · exact ih x hx

theorem lastNamed_of_unique (k : String) (rp : Resource) :
    ∀ rs : List Resource, rp ∈ rs → rp.name = k →
      (∀ r ∈ rs, r.name = k → r = rp) → lastNamed k rs = some rp := by
  intro rs
  induction rs with
  | nil => intro h; exact absurd h (List.not_mem_nil rp)
  | cons r rest ih =>
    intro hmem hname huniq
    unfold lastNamed
    cases hlast : lastNamed k rest with
    | some x =>
      obtain ⟨hxmem, hxn⟩ := lastNamed_mem k rest x hlast
      rw [huniq x (List.mem_cons_of_mem r hxmem) hxn]
    | none =>
      have hnotin : ∀ x ∈ rest, x.name ≠ k := (lastNamed_eq_none_iff k rest).mp hlast
      rcases List.mem_cons.mp hmem with rfl | hmem2
      · rw [if_pos hname]
      · exact absurd hname (hnotin rp hmem2)

/-- Sample global-scope record used by concrete witnesses. -/
def rGsample : Resource :=
  ⟨"svelte", "https://example/global-svelte", "main", "gnote", Scope.global,
    "2024-01-01", "2024-01-01"⟩

/-- Sample project-scope record (same name as `rGsample`) used by witnesses. -/
def rPsample : Resource :=
  ⟨"svelte", "https://example/project-svelte", "dev", "pnote", Scope.project,
    "2024-02-02", "2024-02-02"⟩

/-- C1: for a name present in both registries, `findResource` on the merged
view returns the project-scope record in full — every field is the project
record's, none is merged from the global record — and its `scope` is
`project`. -/
theorem merged_findByName_project_precedence (g p : RegFile) (name : String)
    (rp : Resource)
    (_hglobal : ∃ r ∈ (loadRegistry g).resources, r.name = name)
    (hmem : rp ∈ (loadRegistry p).resources)
    (hname : rp.name = name)
    (huniq : ∀ r ∈ (loadRegistry p).resources, r.name = name → r = rp) :
    findResource g p name = some { rp with scope := Scope.project } ∧
    ∀ found : Resource, findResource g p name = some found →
      found.scope = Scope.project ∧ found.name = rp.name ∧ found.url = rp.url ∧
      found.branch = rp.branch ∧ found.notes = rp.notes ∧
      found.clonedAt = rp.clonedAt ∧ found.updatedAt = rp.updatedAt := by
  have hkey : KeyedMap (insertScope
      (insertScope [] (loadRegistry g).resources Scope.global)
      (loadRegistry p).resources Scope.project) :=
    keyedMap_insertScope _ _ _
      (keyedMap_insertScope _ _ _ (fun q hq => absurd hq (List.not_mem_nil q)))
  have h1 : findResource g p name =
      alookup (insertScope (insertScope [] (loadRegistry g).resources Scope.global)
        (loadRegistry p).resources Scope.project) name := by
    unfold findResource getMergedResources
    exact find?_values_of_keyed name _ hkey
  have h2 : findResource g p name = some { rp with scope := Scope.project } := by
    rw [h1, alookup_insertScope,
      lastNamed_of_unique name rp (loadRegistry p).resources hmem hname huniq]
  refine ⟨h2, ?_⟩
  intro found hfound
  rw [h2] at hfound
  have : ({ rp with scope := Scope.project } : Resource) = found := by
    simpa using hfound
  rw [← this]
  exact ⟨rfl, rfl, rfl, rfl, rfl, rfl, rfl⟩

/-- Witness for C1 at a concrete pair of registries sharing the name
"svelte". -/
theorem merged_findByName_project_precedence_witness :
    findResource (RegFile.parsed ⟨1, [rGsample]⟩) (RegFile.parsed ⟨1, [rPsample]⟩)
      "svelte" = some { rPsample with scope := Scope.project } :=
  (merged_findByName_project_precedence (RegFile.parsed ⟨1, [rGsample]⟩)
    (RegFile.parsed ⟨1, [rPsample]⟩) "svelte" rPsample
    (by decide) (by decide) (by decide) (by decide)).1

/-- C2: when a name already resolves in the merged view (as it does after any
successful `add` of that name), a subsequent `add` of the same name returns
the duplicate-resource error and changes nothing, whichever scope the new add
targets and whichever scope owns the existing record. -/
theorem add_duplicate_rejected (st : St) (name url branch notes now : String)
    (project : Bool) (clone : CloneResult) (stats : Option (String × String))
    (ex : Resource) (h : findResource st.gReg st.pReg name = some ex) :
    addAction st (some name) (some url) branch notes project clone stats now =
      (s!"Error: Resource '{name}' already exists ({scopeStr ex.scope}). Remove it first or use a different name.",
        st, []) := by
  simp only [addAction, h]

/-- Witness for C2: an existing global record rejects a project-targeted
re-add of the same name. -/
theorem add_duplicate_rejected_witness :
    addAction ⟨RegFile.parsed ⟨1, [rGsample]⟩, RegFile.absent, []⟩
      (some "svelte") (some "https://example/other") "main" "" true
      CloneResult.ok none "2025-01-01" =
      ("Error: Resource 'svelte' already exists (global). Remove it first or use a different name.",
        ⟨RegFile.parsed ⟨1, [rGsample]⟩, RegFile.absent, []⟩, []) :=
  add_duplicate_rejected ⟨RegFile.parsed ⟨1, [rGsample]⟩, RegFile.absent, []⟩
    "svelte" "https://example/other" "main" "" "2025-01-01" true CloneResult.ok
    none rGsample (by decide)

/-- C3: when the clone provider fails (non-zero exit or thrown error), `add`
returns the clone-error response and writes nothing to either registry, and
its event trace is just the clone attempt; moreover for every provider
outcome the trace is one of `[]`, `[clone]`, `[clone, write]` — a registry
write only ever comes after the clone attempt. -/
theorem add_clone_failure_leaves_registry (st : St)
    (name url branch notes now e : String) (project : Bool)
    (stats : Option (String × String)) (clone : CloneResult)
    (hfind : findResource st.gReg st.pReg name = none)
    (hfail : clone = CloneResult.exitErr e ∨ clone = CloneResult.thrown e) :
    ((addAction st (some name) (some url) branch notes project clone stats now).1 =
        s!"Error cloning repository: {e}" ∧
      (addAction st (some name) (some url) branch notes project clone stats now).2.1.gReg = st.gReg ∧
      (addAction st (some name) (some url) branch notes project clone stats now).2.1.pReg = st.pReg ∧
      (addAction st (some name) (some url) branch notes project clone stats now).2.2 =
        [Event.cloneAttempt]) ∧
    (∀ cr : CloneResult,
      (addAction st (some name) (some url) branch notes project cr stats now).2.2 = [] ∨
      (addAction st (some name) (some url) branch notes project cr stats now).2.2 =
        [Event.cloneAttempt] ∨
      (addAction st (some name) (some url) branch notes project cr stats now).2.2 =
        [Event.cloneAttempt,
          Event.registryWrite (if project then Scope.project else Scope.global)]) := by
  constructor
  · rcases hfail with rfl | rfl <;>
      simp [addAction, hfind]
  · intro cr
    cases cr with
    | ok => right; right; simp [addAction, hfind]
    | exitErr s => right; left; simp [addAction, hfind]
    | thrown s => right; left; simp [addAction, hfind]

/-- Witness for C3 at a concrete state and a failing clone. -/
theorem add_clone_failure_leaves_registry_witness :
    (addAction ⟨RegFile.absent, RegFile.absent, []⟩ (some "svelte")
        (some "https://example/svelte") "main" "" false
        (CloneResult.exitErr "boom") none "2025-01-01").1 =
      "Error cloning repository: boom" ∧
    (addAction ⟨RegFile.absent, RegFile.absent, []⟩ (some "svelte")
        (some "https://example/svelte") "main" "" false
        (CloneResult.exitErr "boom") none "2025-01-01").2.1.gReg = RegFile.absent :=
  have h := add_clone_failure_leaves_registry ⟨RegFile.absent, RegFile.absent, []⟩
    "svelte" "https://example/svelte" "main" "" "2025-01-01" "boom" false none
    (CloneResult.exitErr "boom") (by decide) (Or.inl rfl)
  ⟨h.1.1, h.1.2.1⟩

/-- C4: saving a registry to a scope and loading that scope back returns an
equal registry. -/
theorem save_load_roundtrip (st : St) (sc : Scope) (registry : ResourceRegistry) :
    loadScope (saveScope st sc registry) sc = registry := by
  cases sc <;> rfl

/-- C5: loading an absent registry file returns the empty default, and so
does loading a present but unparseable one; `loadRegistry` is total, so no
error reaches the caller. -/
theorem load_missing_or_corrupt_default (raw : String) :
    loadRegistry RegFile.absent = ⟨1, []⟩ ∧
    loadRegistry (RegFile.unparseable raw) = ⟨1, []⟩ :=
  ⟨rfl, rfl⟩

/-- C6: for a name that resolves in the merged view, `remove` reports success
and deletes the record from the registry of the scope recorded on the
resolved resource (so the project scope when the name is shadowed), leaving
the other scope's registry file untouched. -/
theorem remove_deletes_owning_scope (st : St) (name : String) (r : Resource)
    (h : findResource st.gReg st.pReg name = some r) :
    (removeAction st (some name)).1 = s!"Removed '{name}'" ∧
    (r.scope = Scope.project →
      (removeAction st (some name)).2.pReg =
        saveRegistry ⟨(loadRegistry st.pReg).version,
          (loadRegistry st.pReg).resources.filter (fun x => decide (x.name ≠ name))⟩ ∧
      (removeAction st (some name)).2.gReg = st.gReg) ∧
    (r.scope = Scope.global →
      (removeAction st (some name)).2.gReg =
        saveRegistry ⟨(loadRegistry st.gReg).version,
          (loadRegistry st.gReg).resources.filter (fun x => decide (x.name ≠ name))⟩ ∧
      (removeAction st (some name)).2.pReg = st.pReg) := by
  refine ⟨?_, ?_, ?_⟩
  · simp [removeAction, h]
  · intro hsc
    constructor <;> simp [removeAction, h, hsc, loadScope, saveScope]
  · intro hsc
    constructor <;> simp [removeAction, h, hsc, loadScope, saveScope]

/-- Witness for C6: with "svelte" in both registries, `remove` empties the
project registry and leaves the global one alone. -/
theorem remove_deletes_owning_scope_witness :
    (removeAction ⟨RegFile.parsed ⟨1, [rGsample]⟩, RegFile.parsed ⟨1, [rPsample]⟩, []⟩
        (some "svelte")).1 = "Removed 'svelte'" ∧
    (removeAction ⟨RegFile.parsed ⟨1, [rGsample]⟩, RegFile.parsed ⟨1, [rPsample]⟩, []⟩
        (some "svelte")).2.pReg = saveRegistry ⟨1, []⟩ ∧
    (removeAction ⟨RegFile.parsed ⟨1, [rGsample]⟩, RegFile.parsed ⟨1, [rPsample]⟩, []⟩
        (some "svelte")).2.gReg = RegFile.parsed ⟨1, [rGsample]⟩ :=
  have h := remove_deletes_owning_scope
    ⟨RegFile.parsed ⟨1, [rGsample]⟩, RegFile.parsed ⟨1, [rPsample]⟩, []⟩
    "svelte" { rPsample with scope := Scope.project } (by decide)
  have h2 := h.2.1 rfl
  ⟨h.1, by simpa using h2.1, h2.2⟩

theorem saveScope_fs (st : St) (sc : Scope) (registry : ResourceRegistry) :
    (saveScope st sc registry).fs = st.fs := by
  cases sc <;> rfl

theorem updateOne_fs (pull : Resource → PullResult) (now : String) (st : St)
    (r : Resource) : (updateOne pull now st r).2.fs = st.fs := by
  unfold updateOne
  split <;> dsimp only
  · split
    · rfl
    · split <;> simp [apply_ite St.fs, saveScope_fs]
  · split <;> rfl
  · split <;> rfl

/-- The report line `update` emits for one resource, as a function of the
(unchanging) filesystem and the pull provider's outcome alone. -/
def updateLine (fs0 : Fs) (pull : Resource → PullResult) (r : Resource) : String :=
  if (fsGet fs0 (getResourcePath r)).isNone then
    s!"{r.name}: Not cloned (use 'restore' to clone)"
  else
    match pull r with
    | .ok out =>
      let trimmed := trimChars out
      if trimmed = "" then s!"{r.name}: Already up to date"
      else s!"{r.name}: {trimmed}"
    | .exitErr e => s!"{r.name}: Error - {e}"
    | .thrown m => s!"{r.name}: Error - {m}"

theorem updateOne_line (pull : Resource → PullResult) (now : String) (st : St)
    (r : Resource) : (updateOne pull now st r).1 = updateLine st.fs pull r := by
  unfold updateOne updateLine
  split <;> dsimp only
  · split
    · rfl
    · split <;> rfl
  · split <;> rfl
  · split <;> rfl

/-- The batch loop's report lines do not depend on the registry writes made
along the way: they are the per-resource lines over the initial state. -/
theorem updateBatch_lines (pull : Resource → PullResult) (now : String) :
    ∀ (rs : List Resource) (st : St),
      (updateBatch pull now st rs).1 = rs.map (updateLine st.fs pull) := by
  intro rs
  induction rs with
  | nil => intro st; rfl
  | cons r rest ih =>
    intro st
    show (updateOne pull now st r).1 ::
        (updateBatch pull now (updateOne pull now st r).2 rest).1 = _
    rw [List.map_cons, updateOne_line, ih, updateOne_fs]

/-- C7: a batch `update` (no name) returns one combined newline-joined report
with exactly one line per targeted resource, each line depending only on that
resource's own pull outcome — so a provider failure on one resource yields
that resource's error line while every other resource still gets its own
line, and nothing is thrown. -/
theorem update_batch_aggregates (st : St) (pull : Resource → PullResult)
    (now : String) (hne : getMergedResources st.gReg st.pReg ≠ []) :
    (updateAction st none pull now).1 =
      String.intercalate "\n"
        ((getMergedResources st.gReg st.pReg).map (updateLine st.fs pull)) ∧
    ((getMergedResources st.gReg st.pReg).map (updateLine st.fs pull)).length =
      (getMergedResources st.gReg st.pReg).length ∧
    (∀ r ∈ getMergedResources st.gReg st.pReg, ∀ e : String,
      (fsGet st.fs (getResourcePath r)).isSome = true →
      (pull r = PullResult.exitErr e ∨ pull r = PullResult.thrown e) →
      updateLine st.fs pull r = s!"{r.name}: Error - {e}") := by
  refine ⟨?_, List.length_map _ _, ?_⟩
  · have hempty : (getMergedResources st.gReg st.pReg).isEmpty = false :=
      List.isEmpty_eq_false.mpr hne
    simp only [updateAction, hempty, Bool.false_eq_true, if_false]
    rw [updateBatch_lines]
  · intro r _ e hsome hfail
    obtain ⟨v, hv⟩ := Option.isSome_iff_exists.mp hsome
    rcases hfail with hp | hp <;> simp [updateLine, hv, hp]

/-- Two cloned global resources for the C7 witness. -/
def rAu : Resource := ⟨"alib", "https://example/a", "main", "", Scope.global, "t", "t"⟩

/-- Second resource for the C7 witness. -/
def rBu : Resource := ⟨"blib", "https://example/b", "main", "", Scope.global, "t", "t"⟩

/-- C7 witness state: both resources registered and cloned. -/
def stUW : St :=
  ⟨RegFile.parsed ⟨1, [rAu, rBu]⟩, RegFile.absent,
    [(GLOBAL_REPOS_DIR ++ ["alib"], Node.dir), (GLOBAL_REPOS_DIR ++ ["blib"], Node.dir)]⟩

/-- C7 witness provider: the pull fails on "alib", succeeds on "blib". -/
def pullW : Resource → PullResult :=
  fun r => if r.name = "alib" then .exitErr "merge conflict" else .ok ""

/-- Witness for C7: the failing resource contributes its error line inline
and the other resource is still processed. -/
theorem update_batch_aggregates_witness :
    (updateAction stUW none pullW "2025-01-01").1 =
      String.intercalate "\n"
        ((getMergedResources stUW.gReg stUW.pReg).map (updateLine stUW.fs pullW)) ∧
    String.intercalate "\n"
        ((getMergedResources stUW.gReg stUW.pReg).map (updateLine stUW.fs pullW)) =
      "alib: Error - merge conflict\nblib: Already up to date" :=
  ⟨(update_batch_aggregates stUW pullW "2025-01-01" (by decide)).1, by decide⟩

/-- C8: when the named resource resolves but its working copy is absent,
`resource_search` returns the "no matches" message with an empty provider
call trace (the content-search provider is never invoked), and that message
differs from the resource-not-found message. -/
theorem search_absent_copy_no_call (st : St) (query name : String) (r : Resource)
    (grep : Resource → GrepResult)
    (hfind : findResource st.gReg st.pReg name = some r)
    (habsent : fsGet st.fs (getResourcePath r) = none) :
    searchAction st query (some name) grep =
      (s!"No matches found for \"{query}\"" ++ s!" in {name}", []) ∧
    s!"No matches found for \"{query}\"" ++ s!" in {name}" ≠
      s!"Resource '{name}' not found." := by
  constructor
  · simp [searchAction, hfind, habsent]
  · intro hcontra
    have h2 := congrArg String.data hcontra
    simp only [toString, String.data_append] at h2
    simp at h2

/-- Witness for C8 at a concrete registry whose resource is not cloned. -/
theorem search_absent_copy_no_call_witness :
    searchAction ⟨RegFile.parsed ⟨1, [rGsample]⟩, RegFile.absent, []⟩
      "reactive" (some "svelte") (fun _ => GrepResult.ok "hit") =
      ("No matches found for \"reactive\" in svelte", []) := by
  have h := (search_absent_copy_no_call
    ⟨RegFile.parsed ⟨1, [rGsample]⟩, RegFile.absent, []⟩
    "reactive" "svelte" rGsample (fun _ => GrepResult.ok "hit")
    (by decide) (by decide)).1
  rw [h]
  rfl

/-- Project-scope resource for the C10 path-escape instance. -/
def rEsc : Resource :=
  ⟨"docs", "https://example/docs", "main", "", Scope.project, "t", "t"⟩

/-- C10 state: the "docs" working copy exists, a file inside it exists, and a
secret file sits outside the repos tree (two levels up from the clone). -/
def stEsc : St :=
  ⟨RegFile.absent, RegFile.parsed ⟨1, [rEsc]⟩,
    [(PROJECT_REPOS_DIR ++ ["docs"], Node.dir),
      (PROJECT_REPOS_DIR ++ ["docs", "README.md"], Node.file "hello docs"),
      (["project", ".opencode", "resources", "secret.txt"], Node.file "TOP-SECRET")]⟩

/-- C10: `resource_read` locates the file by plain join of the resource root
and `filePath` with no containment check — whenever the joined path is an
existing regular file its full contents are returned — and in particular a
`filePath` with ".." segments reads a file strictly outside the working-copy
directory. -/
theorem read_joins_without_containment :
    (∀ (st : St) (name filePath : String) (r : Resource) (c : String),
      findResource st.gReg st.pReg name = some r →
      (fsGet st.fs (getResourcePath r)).isSome = true →
      fsGet st.fs (pathJoin (getResourcePath r) filePath) = some (Node.file c) →
      readAction st name filePath = s!"# {name}/{filePath}\n\n{c}") ∧
    (readAction stEsc "docs" "../../secret.txt" = "# docs/../../secret.txt\n\nTOP-SECRET" ∧
      pathJoin (getResourcePath rEsc) "../../secret.txt" =
        ["project", ".opencode", "resources", "secret.txt"] ∧
      (getResourcePath rEsc).isPrefixOf
        (pathJoin (getResourcePath rEsc) "../../secret.txt") = false) := by
  constructor
  · intro st name filePath r c hfind hsome hfile
    have hnone : (fsGet st.fs (getResourcePath r)).isNone = false := by
      rcases Option.isSome_iff_exists.mp hsome with ⟨v, hv⟩
      simp [hv]
    simp [readAction, hfind, hnone, hfile]
  · refine ⟨by decide, by decide, by decide⟩

/-- Witness for C10's universally quantified part, at an ordinary in-repo
file of the concrete state. -/
theorem read_joins_without_containment_witness :
    readAction stEsc "docs" "README.md" = "# docs/README.md\n\nhello docs" :=
  read_joins_without_containment.1 stEsc "docs" "README.md" rEsc "hello docs"
    (by decide) (by decide) (by decide)

theorem charsLt_irrefl : ∀ cs : List Char, charsLt cs cs = false := by
  intro cs
  induction cs with
  | nil => rfl
  | cons c cs ih => simp [charsLt, ih]

theorem strLt_ne {a b : String} (h : strLt a b = true) : a ≠ b := by
  intro he
  subst he
  rw [strLt, charsLt_irrefl] at h
  exact Bool.false_ne_true h

theorem charsLt_trans : ∀ {a b c : List Char},
    charsLt a b = true → charsLt b c = true → charsLt a c = true := by
  intro a
  induction a with
  | nil =>
    intro b c h1 h2
    cases b with
    | nil => exact absurd h1 (by simp [charsLt])
    | cons y ys =>
      cases c with
      | nil => exact absurd h2 (by simp [charsLt])
      | cons z zs => rfl
  | cons x xs ih =>
    intro b c h1 h2
    cases b with
    | nil => exact absurd h1 (by simp [charsLt])
    | cons y ys =>
      cases c with
      | nil => exact absurd h2 (by simp [charsLt])
      | cons z zs =>
        by_cases hxy : x = y
        · subst hxy
          by_cases hxz : x = z
          · subst hxz
            simp only [charsLt, if_pos rfl] at h1 h2 ⊢
            exact ih h1 h2
          · simp only [charsLt, if_pos rfl] at h1
            simp only [charsLt, if_neg hxz] at h2 ⊢
            exact h2
        · simp only [charsLt, if_neg hxy] at h1
          by_cases hyz : y = z
          · have hxz : ¬ x = z := fun he => hxy (he.trans hyz.symm)
            simp only [charsLt, if_neg hxz]
            exact hyz ▸ h1
          · simp only [charsLt, if_neg hyz] at h2
            rw [charLtB, decide_eq_true_eq] at h1 h2
            have hlt : x.toNat < z.toNat := lt_trans h1 h2
            have hxz : ¬ x = z := by
              intro he
              subst he
              exact absurd hlt (lt_irrefl _)
            simp only [charsLt, if_neg hxz, charLtB, decide_eq_true_eq]
            exact hlt

theorem charsLt_trichotomy : ∀ a b : List Char,
    charsLt a b = true ∨ a = b ∨ charsLt b a = true := by
  intro a
  induction a with
  | nil =>
    intro b
    cases b with
    | nil => right; left; rfl
    | cons y ys => left; rfl
  | cons x xs ih =>
    intro b
    cases b with
    | nil => right; right; rfl
    | cons y ys =>
      by_cases hxy : x = y
      · subst hxy
        rcases ih ys with h | h | h
        · left; simp [charsLt, h]
        · right; left; rw [h]
        · right; right; simp [charsLt, h]
      · have hyx : ¬ y = x := fun he => hxy he.symm
        rcases lt_trichotomy x.toNat y.toNat with h | h | h
        · left; simp [charsLt, hxy, charLtB, h]
        · exact absurd (Char.ext (UInt32.toNat.inj h)) hxy
        · right; right; simp [charsLt, hyx, charLtB, h]

theorem strLt_trans {a b c : String} (h1 : strLt a b = true)
    (h2 : strLt b c = true) : strLt a c = true :=
  charsLt_trans h1 h2

theorem strLt_trichotomy (a b : String) :
    strLt a b = true ∨ a = b ∨ strLt b a = true := by
  rcases charsLt_trichotomy a.data b.data with h | h | h
  · left; exact h
  · right; left
    cases a
    cases b
    exact congrArg String.mk h
  · right; right; exact h

theorem segLe_total (a b : FPath) : segLe a b = true ∨ segLe b a = true := by
  induction a generalizing b with
  | nil => left; rfl
  | cons x xs ih =>
    cases b with
    | nil => right; rfl
    | cons y ys =>
      by_cases hxy : x = y
      · subst hxy
        rcases ih ys with h | h
        · left; simpa [segLe] using h
        · right; simpa [segLe] using h
      · have hyx : ¬ y = x := fun he => hxy he.symm
        rcases strLt_trichotomy x y with h | h | h
        · left; simp [segLe, hxy, h]
        · exact absurd h hxy
        · right; simp [segLe, hyx, h]

theorem segLe_trans {a b c : FPath} (h1 : segLe a b = true)
    (h2 : segLe b c = true) : segLe a c = true := by
  induction a generalizing b c with
  | nil => rfl
  | cons x xs ih =>
    cases b with
    | nil => simp [segLe] at h1
    | cons y ys =>
      cases c with
      | nil => simp [segLe] at h2
      | cons z zs =>
        by_cases hxy : x = y
        · subst hxy
          by_cases hxz : x = z
          · subst hxz
            simp only [segLe, if_pos rfl] at h1 h2 ⊢
            exact ih h1 h2
          · simp only [segLe, if_pos rfl] at h1
            simp only [segLe, if_neg hxz] at h2 ⊢
            exact h2
        · simp only [segLe, if_neg hxy] at h1
          by_cases hyz : y = z
          · have hxz : ¬ x = z := fun he => hxy (he.trans hyz.symm)
            simp only [segLe, if_neg hxz]
            exact hyz ▸ h1
          · simp only [segLe, if_neg hyz] at h2
            have hlt : strLt x z = true := strLt_trans h1 h2
            have hxz : ¬ x = z := strLt_ne hlt
            simp only [segLe, if_neg hxz]
            exact hlt

theorem mem_insertSorted (x : FPath) :
    ∀ (l : List FPath) (z : FPath), z ∈ insertSorted x l ↔ z = x ∨ z ∈ l := by
  intro l
  induction l with
  | nil => intro z; simp [insertSorted]
  | cons y ys ih =>
    intro z
    unfold insertSorted
    split
    · exact List.mem_cons
    · rw [List.mem_cons, ih z, List.mem_cons]
      tauto

theorem length_insertSorted (x : FPath) :
    ∀ l : List FPath, (insertSorted x l).length = l.length + 1 := by
  intro l
  induction l with
  | nil => rfl
  | cons y ys ih =>
    unfold insertSorted
    split
    · simp
    · simp [ih]

theorem pairwise_insertSorted (x : FPath) :
    ∀ l : List FPath, l.Pairwise (fun a b => segLe a b = true) →
      (insertSorted x l).Pairwise (fun a b => segLe a b = true) := by
  intro l
  induction l with
  | nil => intro _; exact List.pairwise_singleton _ x
  | cons y ys ih =>
    intro hp
    unfold insertSorted
    split
    · rename_i hxy
      refine List.Pairwise.cons ?_ hp
      intro z hz
      rcases List.mem_cons.mp hz with rfl | hz2
      · exact hxy
      · exact segLe_trans hxy ((List.pairwise_cons.mp hp).1 z hz2)
    · rename_i hxy
      have hyx : segLe y x = true := by
        rcases segLe_total x y with h | h
        · exact absurd h hxy
        · exact h
      obtain ⟨hhead, htail⟩ := List.pairwise_cons.mp hp
      refine List.pairwise_cons.mpr ⟨?_, ih htail⟩
      intro z hz
      rcases (mem_insertSorted x ys z).mp hz with rfl | hz2
      · exact hyx
      · exact hhead z hz2

theorem sortPaths_pairwise (l : List FPath) :
    (sortPaths l).Pairwise (fun a b => segLe a b = true) := by
  unfold sortPaths
  induction l with
  | nil => exact List.Pairwise.nil
  | cons x xs ih => exact pairwise_insertSorted x _ ih

theorem sortPaths_length (l : List FPath) : (sortPaths l).length = l.length := by
  unfold sortPaths
  induction l with
  | nil => rfl
  | cons x xs ih => simp [List.foldr_cons, length_insertSorted, ih]

theorem mem_sortPaths (l : List FPath) (z : FPath) : z ∈ sortPaths l ↔ z ∈ l := by
  unfold sortPaths
  induction l with
  | nil => simp
  | cons x xs ih => simp [List.foldr_cons, mem_insertSorted, ih]

theorem segLe_append_left (p : FPath) :
    ∀ a b, segLe (p ++ a) (p ++ b) = segLe a b := by
  induction p with
  | nil => intro a b; rfl
  | cons x xs ih => intro a b; simp [segLe, ih]

theorem isPrefixOf_append_self (p t : FPath) : p.isPrefixOf (p ++ t) = true := by
  induction p with
  | nil => simp [List.isPrefixOf]
  | cons x xs ih => simp [List.isPrefixOf, ih]

theorem isPrefixOf_exists (p : FPath) :
    ∀ l : FPath, p.isPrefixOf l = true → ∃ t, l = p ++ t := by
  induction p with
  | nil => intro l _; exact ⟨l, rfl⟩
  | cons x xs ih =>
    intro l h
    cases l with
    | nil => simp [List.isPrefixOf] at h
    | cons y ys =>
      simp only [List.isPrefixOf, Bool.and_eq_true, beq_iff_eq] at h
      obtain ⟨t, ht⟩ := ih ys h.2
      exact ⟨t, by simp [h.1, ht]⟩

theorem relSeg_append (p t : FPath) : relSeg p (p ++ t) = t := by
  unfold relSeg
  rw [if_pos (isPrefixOf_append_self p t), List.drop_left]

theorem getResourcePath_ne_nil (r : Resource) : getResourcePath r ≠ [] := by
  unfold getResourcePath
  cases r.scope <;> simp [GLOBAL_REPOS_DIR, PROJECT_REPOS_DIR]

theorem treeLines_eq_of_prefixed (p : FPath) (findOut : List FPath)
    (hp : p ≠ []) (hpre : ∀ l ∈ findOut, p.isPrefixOf l = true) :
    treeLines p findOut = (treePipeline findOut).map (relSeg p) ∧
    (treeLines p findOut).length = min 100 findOut.length := by
  have hfilter : (treePipeline findOut).filter (fun l => decide (l ≠ [])) =
      treePipeline findOut := by
    apply List.filter_eq_self.mpr
    intro a ha
    have hmem : a ∈ findOut :=
      (mem_sortPaths _ _).mp ((List.take_sublist _ _).subset ha)
    obtain ⟨t, rfl⟩ := isPrefixOf_exists p a (hpre _ hmem)
    have hnn : p ++ t ≠ [] := by
      cases p with
      | nil => exact absurd rfl hp
      | cons _ _ => simp
    exact decide_eq_true hnn
  refine ⟨by unfold treeLines; rw [hfilter], ?_⟩
  unfold treeLines
  rw [hfilter, List.length_map]
  unfold treePipeline
  rw [List.length_take, sortPaths_length]

/-- C9 (amended): a successful `tree` listing holds at most 100 entries,
sorted, each an enumerated path rewritten relative to the resource root; the
truncation notice is appended iff the 100-entry cap was reached, i.e. iff at
least 100 entries were enumerated — including the boundary case of exactly
100, where nothing was actually cut off. -/
theorem tree_cap_sorted_relative (st : St) (name subpath : String) (depth : Nat)
    (findOut : List FPath) (r : Resource)
    (hfind : findResource st.gReg st.pReg name = some r)
    (hrepo : (fsGet st.fs (getResourcePath r)).isSome = true)
    (htarget : (fsGet st.fs (pathJoin (getResourcePath r) subpath)).isSome = true)
    (hpre : ∀ l ∈ findOut, (getResourcePath r).isPrefixOf l = true)
    (hne : findOut ≠ []) :
    (treeLines (getResourcePath r) findOut).length ≤ 100 ∧
    (treeLines (getResourcePath r) findOut).Pairwise (fun a b => segLe a b = true) ∧
    (∀ l ∈ treeLines (getResourcePath r) findOut,
      getResourcePath r ++ l ∈ findOut) ∧
    (100 ≤ (treeLines (getResourcePath r) findOut).length ↔ 100 ≤ findOut.length) ∧
    treeAction st name subpath depth findOut =
      (if subpath = "" then s!"Files in {name} (depth: {depth}):\n\n"
        else s!"Files in {name}/{subpath} (depth: {depth}):\n\n") ++
      String.intercalate "\n" ((treeLines (getResourcePath r) findOut).map joinPath) ++
      (if 100 ≤ findOut.length then "\n\n(truncated at 100 files)" else "") := by
  obtain ⟨heq, hlen⟩ := treeLines_eq_of_prefixed (getResourcePath r) findOut
    (getResourcePath_ne_nil r) hpre
  have hmemFind : ∀ a, a ∈ treePipeline findOut → a ∈ findOut := fun a ha =>
    (mem_sortPaths _ _).mp ((List.take_sublist _ _).subset ha)
  have hiff : 100 ≤ (treeLines (getResourcePath r) findOut).length ↔
      100 ≤ findOut.length := by
    rw [hlen]
    exact Nat.le_min.trans (and_iff_right (le_refl 100))
  refine ⟨by rw [hlen]; exact min_le_left _ _, ?_, ?_, hiff, ?_⟩
  · rw [heq]
    apply List.pairwise_map.mpr
    apply List.Pairwise.imp_of_mem ?_
      (List.Pairwise.sublist (List.take_sublist _ _) (sortPaths_pairwise findOut))
    intro a b ha hb hab
    obtain ⟨ta, hta⟩ := isPrefixOf_exists _ a (hpre _ (hmemFind a ha))
    obtain ⟨tb, htb⟩ := isPrefixOf_exists _ b (hpre _ (hmemFind b hb))
    subst hta htb
    rw [relSeg_append, relSeg_append]
    rw [segLe_append_left] at hab
    exact hab
  · rw [heq]
    intro l hl
    obtain ⟨a, ha, rfl⟩ := List.mem_map.mp hl
    obtain ⟨t, rfl⟩ := isPrefixOf_exists _ a (hpre _ (hmemFind a ha))
    rw [relSeg_append]
    exact hmemFind _ ha
  · have hnonempty : (treeLines (getResourcePath r) findOut).isEmpty = false := by
      rw [List.isEmpty_eq_false]
      intro hnil
      have h0 : (0 : Nat) = 100 ⊓ findOut.length := by
        rw [← hlen, hnil]
        rfl
      have hz : findOut.length = 0 := by omega
      exact hne (List.length_eq_zero.mp hz)
    obtain ⟨v, hv⟩ := Option.isSome_iff_exists.mp hrepo
    obtain ⟨w, hw⟩ := Option.isSome_iff_exists.mp htarget
    have htrunc : ((treeLines (getResourcePath r) findOut).length ≥ 100) =
        (100 ≤ findOut.length) := propext hiff
    by_cases hsub : subpath = ""
    · subst hsub
      simp [treeAction, hfind, hv, hw, hnonempty, htrunc,
        List.isEmpty_eq_false, toString, String.append_assoc]
    · simp [treeAction, hfind, hv, hw, hnonempty, hsub, htrunc,
        List.isEmpty_eq_false, toString, String.append_assoc]

/-- Global resource "docs" used by the tree instances. -/
def rTree : Resource :=
  ⟨"docs", "https://example/docs", "main", "", Scope.global, "t", "t"⟩

/-- State with "docs" registered and cloned. -/
def stTree : St :=
  ⟨RegFile.parsed ⟨1, [rTree]⟩, RegFile.absent,
    [(GLOBAL_REPOS_DIR ++ ["docs"], Node.dir)]⟩

/-- Exactly 100 enumerated files, already in ascending order. -/
def treeOut100 : List FPath :=
  (List.range 100).map (fun i => GLOBAL_REPOS_DIR ++ ["docs", "f" ++ toString (100 + i)])

set_option maxRecDepth 40000 in
/-- C9 counterexample: with exactly 100 enumerated files no entry beyond the
first 100 exists — nothing is cut off — yet the listing keeps all 100 entries
and the truncation notice is still appended. -/
theorem tree_trunc_at_exactly_100 :
    treeOut100.length = 100 ∧
    (treeLines (GLOBAL_REPOS_DIR ++ ["docs"]) treeOut100).length = 100 ∧
    treeAction stTree "docs" "" 3 treeOut100 =
      "Files in docs (depth: 3):\n\n" ++
        String.intercalate "\n"
          ((treeLines (GLOBAL_REPOS_DIR ++ ["docs"]) treeOut100).map joinPath) ++
        "\n\n(truncated at 100 files)" := by
  refine ⟨by decide, by decide, by decide⟩

/-- Two unsorted enumerated files for the C9 witness. -/
def treeOutW : List FPath :=
  [GLOBAL_REPOS_DIR ++ ["docs", "b.md"], GLOBAL_REPOS_DIR ++ ["docs", "a.md"]]

/-- Witness for C9 (amended) on a small instance: two files come back sorted,
relative, with no truncation notice. -/
theorem tree_cap_sorted_relative_witness :
    (treeLines (GLOBAL_REPOS_DIR ++ ["docs"]) treeOutW).length ≤ 100 ∧
    treeAction stTree "docs" "" 3 treeOutW = "Files in docs (depth: 3):\n\na.md\nb.md" := by
  have h := tree_cap_sorted_relative stTree "docs" "" 3 treeOutW rTree
    (by decide) (by decide) (by decide) (by decide) (by decide)
  refine ⟨?_, ?_⟩
  · have h1 := h.1
    simpa [rTree, getResourcePath] using h1
  · rw [h.2.2.2.2]
    decide
